import Mathlib

/-
Verification of the alpano angular / root-finding core: a shallow
embedding of the files src/utils/math.rs and src/utils/azimuth.rs.

Modelling conventions:

- The f64 values are modelled by exact arithmetic.  The azimuth and
  angular-distance functions are modelled over the rationals, with the
  constants PI, TAU and FRAC_PI_4 taken to be the exact rational values
  of the f64 constants (the f64 constant TAU is exactly 2 * PI and the
  f64 constant FRAC_PI_4 is exactly PI / 4, so those identities are
  exact here as well).  The root finder is polymorphic over a linear
  ordered field so that it can be instantiated at the rationals (for
  concrete evaluation) and at the reals (where the caller-supplied
  function can be Real.sin).

- The Rust operator % on f64 is the exact truncating (sign-of-dividend)
  remainder, modelled by fmod below; rem_euclid on f64 is modelled
  following the Rust implementation (truncating remainder, then add the
  absolute value of the divisor if the remainder is negative).

- On f64, signum returns 1.0 for positive values and for positive zero,
  and -1.0 for negative values and negative zero.  The rationals have a
  single zero, which corresponds to the IEEE positive zero, so signum
  maps 0 to 1.

- The while loops of improve_root and first_interval_containing_root
  are modelled with an explicit fuel parameter; none means the loop did
  not finish within the given fuel.  The wrappers pass fuel that is
  proved sufficient whenever the loop terminates (eps > 0 for the
  bisection, dx > 0 for the scan); for eps <= 0 the bisection loop is
  proved to return none for every fuel, modelling non-termination of
  the Rust loop.

- A Rust Result of T and unit is modelled by Except Unit T.

- In first_interval_containing_root, the Rust function returns the
  sentinel value f64 INFINITY when the scan is exhausted; infinity is
  not a rational or real number, so the found-or-exhausted result is an
  Option with none standing for the INFINITY sentinel (wrapped in an
  outer Option for the fuel as described above).  The literal 1e-10 is
  modelled as 1 / 10 ^ 10; only its positivity is relevant to which
  branch first_interval_containing_root takes.

- In to_octant_str, the Rust code looks up the label list and unwraps;
  the model returns the Option produced by the list lookup, and it is
  proved that the lookup always succeeds for canonical input.
-/

namespace Alpano

/-- Exact rational value of the f64 constant PI
(bit pattern 0x400921FB54442D18). -/
def PI : ℚ := 884279719003555 / 281474976710656

/-- Exact rational value of the f64 constant TAU; equals 2 * PI
exactly, as it does for the f64 constants. -/
def TAU : ℚ := 2 * PI

/-- Exact rational value of the f64 constant FRAC_PI_4; equals PI / 4
exactly, as it does for the f64 constants. -/
def FRAC_PI_4 : ℚ := PI / 4

/-- Truncation toward zero, the rounding used by the Rust operator %
on floats. -/
def trunc (q : ℚ) : ℤ := if q < 0 then ⌈q⌉ else ⌊q⌋

/-- Model of the Rust operator % on f64 (exact truncating,
sign-of-dividend remainder): x % y = x - y * trunc (x / y). -/
def fmod (x y : ℚ) : ℚ := x - y * (trunc (x / y) : ℚ)

/-- Model of rem_euclid on f64, following the Rust implementation:
truncating remainder, then add the absolute value of the divisor if
the remainder is negative. -/
def rem_euclid (x y : ℚ) : ℚ :=
  if fmod x y < 0 then fmod x y + |y| else fmod x y

/-- Model of signum on f64 restricted to exact values: 1 for
nonnegative input (IEEE positive zero has signum 1.0, and the single
rational zero corresponds to positive zero), -1 for negative input. -/
def signum {α : Type} [LinearOrderedField α] (x : α) : α :=
  if x < 0 then -1 else 1

/-- Model of angular_distance from src/utils/math.rs:
diff = (a2 - a1 + PI) % TAU - PI, then add TAU if diff < -PI. -/
def angular_distance (a1 a2 : ℚ) : ℚ :=
  if fmod (a2 - a1 + PI) TAU - PI < -PI then fmod (a2 - a1 + PI) TAU - PI + TAU
  else fmod (a2 - a1 + PI) TAU - PI

/-- Model of is_canonical from src/utils/azimuth.rs: the range check
0 <= azimuth && azimuth < TAU. -/
def is_canonical (azimuth : ℚ) : Bool :=
  decide (0 ≤ azimuth ∧ azimuth < TAU)

/-- Model of canonicalize from src/utils/azimuth.rs:
azimuth.rem_euclid(TAU). -/
def canonicalize (azimuth : ℚ) : ℚ := rem_euclid azimuth TAU

/-- Model of to_math from src/utils/azimuth.rs. -/
def to_math (azimuth : ℚ) : Except Unit ℚ :=
  if is_canonical azimuth then Except.ok (rem_euclid (TAU - azimuth) TAU)
  else Except.error ()

/-- Model of from_math from src/utils/azimuth.rs: checks canonicity,
then delegates to to_math. -/
def from_math (azimuth : ℚ) : Except Unit ℚ :=
  if is_canonical azimuth then to_math azimuth else Except.error ()

/-- The lookup table built inside to_octant_str. -/
def octants (n e s w : String) : List String :=
  [n, n ++ e, e, s ++ e, s, s ++ w, w, n ++ w]

/-- Model of to_octant_str from src/utils/azimuth.rs.  The index value
is the floor of azimuth / FRAC_PI_4 + 0.5 converted to i32, and the
lookup index is that value modulo 8 with the truncating remainder
Int.tmod (the value is proved nonnegative for canonical input, where
the cast to usize is the cast through toNat).  The Option in the
result models the list lookup whose unwrap is proved to never fail. -/
def to_octant_str (azimuth : ℚ) (n e s w : String) : Except Unit (Option String) :=
  if is_canonical azimuth then
    Except.ok ((octants n e s w).get? (Int.tmod ⌊azimuth / FRAC_PI_4 + 1/2⌋ 8).toNat)
  else Except.error ()

/-- The bisection loop of improve_root (loop while x2 - x1 > eps),
with explicit fuel.  A result of none models not finishing within fuel
iterations; some x1 models the final value returned as Ok. -/
def improveRootGo {α : Type} [LinearOrderedField α] (f : α → α) (eps : α) :
    ℕ → α → α → Option α
  | 0, x1, x2 => if x2 - x1 > eps then none else some x1
  | fuel + 1, x1, x2 =>
    if x2 - x1 > eps then
      if signum (f ((x1 + x2) / 2)) = signum (f x1) then
        improveRootGo f eps fuel ((x1 + x2) / 2) x2
      else
        improveRootGo f eps fuel x1 ((x1 + x2) / 2)
    else some x1

/-- Model of improve_root from src/utils/math.rs.  The guard is
exactly the Rust guard: the signum of f x1 equals the signum of f x2,
or x1 > x2.  The loop is run with fuel Nat.clog 2 of the ceiling of
(x2 - x1) / eps, which is the ceiling of the base-two logarithm of
(x2 - x1) / eps; this fuel is proved sufficient whenever eps > 0 and
the guard passes, and for eps <= 0 the loop is proved to return none
for every fuel, so the fuel choice is faithful. -/
def improve_root {α : Type} [LinearOrderedField α] [FloorRing α]
    (f : α → α) (x1 x2 eps : α) : Option (Except Unit α) :=
  if signum (f x1) = signum (f x2) ∨ x1 > x2 then
    some (Except.error ())
  else
    (improveRootGo f eps (Nat.clog 2 (⌈(x2 - x1) / eps⌉.toNat)) x1 x2).map Except.ok

/-- The scan loop of first_interval_containing_root (loop while
i < max_x), with explicit fuel.  An outer none models not finishing
within fuel iterations; some none models returning the INFINITY
sentinel; some (some i) models returning the left edge i. -/
def firstIntervalGo {α : Type} [LinearOrderedField α] [FloorRing α]
    (f : α → α) (maxX dx : α) : ℕ → α → Option (Option α)
  | 0, i => if i < maxX then none else some none
  | fuel + 1, i =>
    if i < maxX then
      match improve_root f i (i + dx) (1 / 10 ^ 10) with
      | some (Except.ok _) => some (some i)
      | _ => firstIntervalGo f maxX dx fuel (i + dx)
    else some none

/-- Model of first_interval_containing_root from src/utils/math.rs.
The fuel, the ceiling of (max_x - min_x) / dx plus one, is proved
sufficient whenever dx > 0. -/
def first_interval_containing_root {α : Type} [LinearOrderedField α] [FloorRing α]
    (f : α → α) (minX maxX dx : α) : Option (Option α) :=
  firstIntervalGo f maxX dx ((⌈(maxX - minX) / dx⌉).toNat + 1) minX

/-- The constant PI of the model is positive. -/
theorem PI_pos : (0:ℚ) < PI := by norm_num [PI]

/-- The constant PI of the model exceeds three. -/
theorem PI_gt_3 : (3:ℚ) < PI := by norm_num [PI]

/-- TAU is definitionally twice PI (exact for the f64 constants). -/
theorem TAU_eq : TAU = 2 * PI := rfl

/-- TAU is positive. -/
theorem TAU_pos : (0:ℚ) < TAU := by rw [TAU_eq]; linarith [PI_pos]

/-- FRAC_PI_4 is definitionally a quarter of PI. -/
theorem FRAC_PI_4_eq : FRAC_PI_4 = PI / 4 := rfl

/-- FRAC_PI_4 is positive. -/
theorem FRAC_PI_4_pos : (0:ℚ) < FRAC_PI_4 := by rw [FRAC_PI_4_eq]; linarith [PI_pos]

/-- Truncation toward zero is above q - 1. -/
theorem trunc_gt (q : ℚ) : q - 1 < (trunc q : ℚ) := by
  unfold trunc
  split
  · calc q - 1 < q := by linarith
      _ ≤ ⌈q⌉ := Int.le_ceil q
  · exact Int.sub_one_lt_floor q

/-- Truncation toward zero is below q + 1. -/
theorem trunc_lt (q : ℚ) : (trunc q : ℚ) < q + 1 := by
  unfold trunc
  split
  · exact Int.ceil_lt_add_one q
  · calc (⌊q⌋ : ℚ) ≤ q := Int.floor_le q
      _ < q + 1 := by linarith

/-- The truncating remainder is below the (positive) divisor. -/
theorem fmod_lt {y : ℚ} (hy : 0 < y) (x : ℚ) : fmod x y < y := by
  have key : y * (x / y - 1) = x - y := by field_simp
  have h2 := mul_lt_mul_of_pos_left (trunc_gt (x / y)) hy
  rw [key] at h2
  unfold fmod
  linarith

/-- The truncating remainder is above the negated (positive) divisor. -/
theorem neg_lt_fmod {y : ℚ} (hy : 0 < y) (x : ℚ) : -y < fmod x y := by
  have key : y * (x / y + 1) = x + y := by field_simp
  have h2 := mul_lt_mul_of_pos_left (trunc_lt (x / y)) hy
  rw [key] at h2
  unfold fmod
  linarith

/-- The Euclidean remainder of the model is nonnegative for a positive
divisor. -/
theorem rem_euclid_nonneg {y : ℚ} (hy : 0 < y) (x : ℚ) : 0 ≤ rem_euclid x y := by
  unfold rem_euclid
  split
  · rw [abs_of_pos hy]
    linarith [neg_lt_fmod hy x]
  · linarith [not_lt.mp (by assumption : ¬ fmod x y < 0)]

/-- The Euclidean remainder of the model is below a positive divisor. -/
theorem rem_euclid_lt {y : ℚ} (hy : 0 < y) (x : ℚ) : rem_euclid x y < y := by
  unfold rem_euclid
  split
  · rw [abs_of_pos hy]
    linarith [(by assumption : fmod x y < 0)]
  · exact fmod_lt hy x

/-- The Euclidean remainder differs from the dividend by an integer
multiple of the divisor. -/
theorem rem_euclid_congr {y : ℚ} (hy : 0 < y) (x : ℚ) :
    ∃ k : ℤ, rem_euclid x y = x - (k : ℚ) * y := by
  unfold rem_euclid
  split
  · exact ⟨trunc (x / y) - 1, by rw [abs_of_pos hy]; unfold fmod; push_cast; ring⟩
  · exact ⟨trunc (x / y), by unfold fmod; ring⟩

/-- Two values of a window of width y that differ by an integer
multiple of y are equal. -/
theorem rep_unique {y : ℚ} (hy : 0 < y) (c v w : ℚ) (hv1 : c ≤ v) (hv2 : v < c + y)
    (hw1 : c ≤ w) (hw2 : w < c + y) (k : ℤ) (hk : v - w = (k : ℚ) * y) : v = w := by
  have h1 : |v - w| < y := abs_lt.mpr ⟨by linarith, by linarith⟩
  rw [hk, abs_mul, abs_of_pos hy] at h1
  have h2 : |(k : ℚ)| * y < 1 * y := by rw [one_mul]; exact h1
  have h3 : |(k : ℚ)| < 1 := (mul_lt_mul_right hy).mp h2
  have h4 : |k| < 1 := by exact_mod_cast (by push_cast; exact h3 : ((|k| : ℤ) : ℚ) < 1)
  have h6 := abs_lt.mp h4
  have h5 : k = 0 := by omega
  rw [h5] at hk
  push_cast at hk
  linarith

/-- The Euclidean remainder of the model equals the floor-based
Euclidean remainder for a positive divisor. -/
theorem rem_euclid_eq_floor {y : ℚ} (hy : 0 < y) (x : ℚ) :
    rem_euclid x y = x - y * (⌊x / y⌋ : ℚ) := by
  obtain ⟨k, hk⟩ := rem_euclid_congr hy x
  have hxy : y * (x / y) = x := by field_simp
  have hf1 : 0 ≤ x - y * (⌊x / y⌋ : ℚ) := by
    have := mul_le_mul_of_nonneg_left (Int.floor_le (x / y)) hy.le
    linarith
  have hf2 : x - y * (⌊x / y⌋ : ℚ) < y := by
    have := mul_lt_mul_of_pos_left (Int.lt_floor_add_one (x / y)) hy
    rw [mul_add, mul_one] at this
    linarith
  refine rep_unique hy 0 _ _ (rem_euclid_nonneg hy x) ?_ hf1 ?_ (⌊x / y⌋ - k) ?_
  · rw [zero_add]; exact rem_euclid_lt hy x
  · rw [zero_add]; exact hf2
  · rw [hk]; push_cast; ring

/-- Values already in the window are fixed by the Euclidean remainder. -/
theorem rem_euclid_of_mem {y : ℚ} (hy : 0 < y) {x : ℚ} (h0 : 0 ≤ x) (hxy : x < y) :
    rem_euclid x y = x := by
  rw [rem_euclid_eq_floor hy]
  have hz : ⌊x / y⌋ = 0 := by
    rw [Int.floor_eq_zero_iff]
    constructor
    · exact div_nonneg h0 hy.le
    · exact (div_lt_one hy).mpr hxy
  rw [hz]
  push_cast
  ring

/-- The Euclidean remainder of the divisor by itself is zero. -/
theorem rem_euclid_self {y : ℚ} (hy : 0 < y) : rem_euclid y y = 0 := by
  rw [rem_euclid_eq_floor hy, div_self (ne_of_gt hy)]
  rw [Int.floor_one]
  push_cast
  ring

/-- The Bool test is_canonical holds exactly on the canonical range. -/
theorem is_canonical_iff (az : ℚ) : is_canonical az = true ↔ (0 ≤ az ∧ az < TAU) := by
  simp [is_canonical]

/-- The angular distance always lies in the window from -PI
(inclusive) to PI (exclusive). -/
theorem angular_distance_mem (a1 a2 : ℚ) :
    -PI ≤ angular_distance a1 a2 ∧ angular_distance a1 a2 < PI := by
  have h1 := fmod_lt TAU_pos (a2 - a1 + PI)
  have h2 := neg_lt_fmod TAU_pos (a2 - a1 + PI)
  rw [TAU_eq] at h1 h2
  unfold angular_distance
  rw [TAU_eq]
  split_ifs with hd
  · constructor <;> linarith
  · constructor <;> linarith [not_lt.mp hd]

/-- The angular distance is congruent to a2 - a1 modulo TAU. -/
theorem angular_distance_congr (a1 a2 : ℚ) :
    ∃ k : ℤ, angular_distance a1 a2 = (a2 - a1) - (k : ℚ) * TAU := by
  unfold angular_distance
  split_ifs with hd
  · exact ⟨trunc ((a2 - a1 + PI) / TAU) - 1, by unfold fmod; push_cast; ring⟩
  · exact ⟨trunc ((a2 - a1 + PI) / TAU), by unfold fmod; ring⟩

/-- The angular distance is the unique representative of a2 - a1
modulo TAU inside the window from -PI (inclusive) to PI (exclusive). -/
theorem angular_distance_unique (a1 a2 v : ℚ) (h1 : -PI ≤ v) (h2 : v < PI)
    (h3 : ∃ k : ℤ, v = (a2 - a1) - (k : ℚ) * TAU) : angular_distance a1 a2 = v := by
  obtain ⟨k1, hk1⟩ := angular_distance_congr a1 a2
  obtain ⟨k2, hk2⟩ := h3
  have hm := angular_distance_mem a1 a2
  refine rep_unique TAU_pos (-PI) _ _ hm.1 ?_ h1 ?_ (k2 - k1) ?_
  · rw [TAU_eq]; linarith [hm.2]
  · rw [TAU_eq]; linarith
  · rw [hk1, hk2]; push_cast; ring

/-- Canonicity lets to_math take the success branch. -/
theorem to_math_of_canon {az : ℚ} (h : 0 ≤ az ∧ az < TAU) :
    to_math az = Except.ok (rem_euclid (TAU - az) TAU) := by
  rw [to_math, if_pos ((is_canonical_iff az).mpr h)]

/-- Non-canonicity makes to_math fail. -/
theorem to_math_of_not {az : ℚ} (h : ¬ (0 ≤ az ∧ az < TAU)) :
    to_math az = Except.error () := by
  rw [to_math, if_neg]
  rw [is_canonical_iff]
  exact h

/-- For a canonical nonzero azimuth, to_math is exactly the
reflection TAU - az. -/
theorem to_math_eval {x : ℚ} (h0 : 0 < x) (hx : x < TAU) :
    to_math x = Except.ok (TAU - x) := by
  rw [to_math_of_canon ⟨h0.le, hx⟩, rem_euclid_of_mem TAU_pos (by linarith) (by linarith)]

/-- On zero, to_math returns zero (not TAU). -/
theorem to_math_zero : to_math 0 = Except.ok 0 := by
  rw [to_math_of_canon ⟨le_refl 0, TAU_pos⟩, sub_zero, rem_euclid_self TAU_pos]

/-- The two direction conversions are the same function. -/
theorem from_math_eq (az : ℚ) : from_math az = to_math az := by
  unfold from_math to_math
  split_ifs <;> rfl

/-- Canonicity lets to_octant_str take the success branch. -/
theorem to_octant_of_canon (az : ℚ) (n e s w : String) (h : 0 ≤ az ∧ az < TAU) :
    to_octant_str az n e s w =
      Except.ok ((octants n e s w).get? (Int.tmod ⌊az / FRAC_PI_4 + 1/2⌋ 8).toNat) := by
  rw [to_octant_str, if_pos ((is_canonical_iff az).mpr h)]

/-- Non-canonicity makes to_octant_str fail. -/
theorem to_octant_of_not (az : ℚ) (n e s w : String) (h : ¬ (0 ≤ az ∧ az < TAU)) :
    to_octant_str az n e s w = Except.error () := by
  rw [to_octant_str, if_neg]
  rw [is_canonical_iff]
  exact h

/-- Evaluation helper for to_octant_str once the bucket index is
known. -/
theorem to_octant_eval (az : ℚ) (v : ℤ) (n e s w : String) (h : 0 ≤ az ∧ az < TAU)
    (hv : ⌊az / FRAC_PI_4 + 1/2⌋ = v) :
    to_octant_str az n e s w = Except.ok ((octants n e s w).get? (Int.tmod v 8).toNat) := by
  rw [to_octant_of_canon az n e s w h, hv]

/-- C4.  The claim states antisymmetry for all inputs; it fails when
a2 - a1 is congruent to PI modulo TAU (both directions then return
-PI).  Amended: whenever the angular distance is not -PI, the two
directions are exact negations of each other; when it is -PI, the
reverse direction is also -PI. -/
theorem spec_c4 (a1 a2 : ℚ) :
    (angular_distance a1 a2 ≠ -PI →
      angular_distance a1 a2 + angular_distance a2 a1 = 0) ∧
    (angular_distance a1 a2 = -PI → angular_distance a2 a1 = -PI) := by
  constructor
  · intro h
    have hm := angular_distance_mem a1 a2
    have hlt : -PI < angular_distance a1 a2 := lt_of_le_of_ne hm.1 (Ne.symm h)
    obtain ⟨k1, hk1⟩ := angular_distance_congr a1 a2
    have hrev : angular_distance a2 a1 = -(angular_distance a1 a2) := by
      refine angular_distance_unique a2 a1 _ (by linarith [hm.2]) (by linarith) ?_
      exact ⟨-k1, by rw [hk1]; push_cast; ring⟩
    linarith [hrev]
  · intro h
    refine angular_distance_unique a2 a1 (-PI) (le_refl _) (by linarith [PI_pos]) ?_
    obtain ⟨k1, hk1⟩ := angular_distance_congr a1 a2
    rw [h] at hk1
    refine ⟨1 - k1, ?_⟩
    rw [TAU_eq] at hk1 ⊢
    push_cast at hk1 ⊢
    linarith

/-- C4 counterexample: at a1 = 0, a2 = PI both directions of the
angular distance are -PI, so their sum is -TAU, far outside the
claimed 1e-10 tolerance around zero. -/
theorem spec_c4_cex :
    angular_distance 0 PI = -PI ∧ angular_distance PI 0 = -PI ∧
    ¬ (|angular_distance 0 PI + angular_distance PI 0| ≤ 1 / 10 ^ 10) := by
  have e1 : angular_distance 0 PI = -PI := by
    refine angular_distance_unique 0 PI (-PI) (le_refl _) (by linarith [PI_pos]) ?_
    exact ⟨1, by rw [TAU_eq]; push_cast; ring⟩
  have e2 : angular_distance PI 0 = -PI := by
    refine angular_distance_unique PI 0 (-PI) (le_refl _) (by linarith [PI_pos]) ?_
    exact ⟨0, by push_cast; ring⟩
  refine ⟨e1, e2, ?_⟩
  rw [e1, e2, show -PI + -PI = -(2 * PI) by ring, abs_neg, abs_of_pos (by linarith [PI_pos])]
  intro h
  have := PI_gt_3
  norm_num at h
  linarith

/-- C4 witness for the amended theorem, at a1 = 0, a2 = PI / 2. -/
theorem spec_c4_witness :
    angular_distance 0 (PI/2) ≠ -PI ∧
    angular_distance 0 (PI/2) + angular_distance (PI/2) 0 = 0 := by
  have hval : angular_distance 0 (PI/2) = PI/2 := by
    refine angular_distance_unique 0 (PI/2) (PI/2)
      (by linarith [PI_pos]) (by linarith [PI_pos]) ?_
    exact ⟨0, by push_cast; ring⟩
  have hne : angular_distance 0 (PI/2) ≠ -PI := by
    rw [hval]
    intro h
    linarith [PI_pos]
  exact ⟨hne, (spec_c4 0 (PI/2)).1 hne⟩

/-- C5.  The angular distance is computed as the truncating
(sign-of-dividend) remainder expression ((a2 - a1 + PI) % TAU) - PI,
corrected by adding TAU when the raw value is below -PI, and the
result always lies in the half-open window from -PI to PI. -/
theorem spec_c5 (a1 a2 : ℚ) :
    angular_distance a1 a2 =
      (if fmod (a2 - a1 + PI) TAU - PI < -PI then fmod (a2 - a1 + PI) TAU - PI + TAU
       else fmod (a2 - a1 + PI) TAU - PI) ∧
    fmod (a2 - a1 + PI) TAU =
      (a2 - a1 + PI) - TAU * (trunc ((a2 - a1 + PI) / TAU) : ℚ) ∧
    -PI ≤ angular_distance a1 a2 ∧ angular_distance a1 a2 < PI :=
  ⟨rfl, rfl, (angular_distance_mem a1 a2).1, (angular_distance_mem a1 a2).2⟩

/-- C6.  canonicalize always lands in the canonical window, is the
Euclidean (floor-based) remainder by TAU, and maps -PI/2 to 3PI/2. -/
theorem spec_c6 :
    (∀ az : ℚ, 0 ≤ canonicalize az ∧ canonicalize az < TAU ∧
      canonicalize az = az - TAU * (⌊az / TAU⌋ : ℚ)) ∧
    canonicalize (-(PI/2)) = 3 * PI / 2 := by
  constructor
  · intro az
    exact ⟨rem_euclid_nonneg TAU_pos az, rem_euclid_lt TAU_pos az,
      rem_euclid_eq_floor TAU_pos az⟩
  · unfold canonicalize
    rw [rem_euclid_eq_floor TAU_pos]
    have hp : PI ≠ 0 := ne_of_gt PI_pos
    have hd : (-(PI/2)) / TAU = -(1/4 : ℚ) := by
      rw [TAU_eq]
      field_simp
      ring
    rw [hd, show ⌊(-(1/4) : ℚ)⌋ = -1 by norm_num, TAU_eq]
    push_cast
    ring

/-- C7.  to_math fails with the NotCanonical error exactly outside
the canonical window (in particular at exactly TAU), and on canonical
input returns the Euclidean remainder of TAU - az by TAU, so zero maps
to zero and the known values hold. -/
theorem spec_c7 :
    (∀ az : ℚ, (to_math az = Except.error () ↔ ¬ (0 ≤ az ∧ az < TAU)) ∧
      ((0 ≤ az ∧ az < TAU) → to_math az = Except.ok (rem_euclid (TAU - az) TAU))) ∧
    to_math TAU = Except.error () ∧
    to_math 0 = Except.ok 0 ∧
    to_math (PI/2) = Except.ok (3 * PI / 2) ∧
    to_math PI = Except.ok PI ∧
    to_math (3 * PI / 2) = Except.ok (PI / 2) := by
  have hpi := PI_pos
  refine ⟨fun az => ⟨⟨fun he => ?_, fun hn => to_math_of_not hn⟩,
      fun hc => to_math_of_canon hc⟩, ?_, to_math_zero, ?_, ?_, ?_⟩
  · by_contra hc
    rw [to_math_of_canon hc] at he
    exact Except.noConfusion he
  · exact to_math_of_not fun h => absurd h.2 (lt_irrefl TAU)
  · rw [to_math_eval (by linarith) (by rw [TAU_eq]; linarith),
      show TAU - PI/2 = 3 * PI / 2 by rw [TAU_eq]; ring]
  · rw [to_math_eval (by linarith) (by rw [TAU_eq]; linarith),
      show TAU - PI = PI by rw [TAU_eq]; ring]
  · rw [to_math_eval (by linarith) (by rw [TAU_eq]; linarith),
      show TAU - 3 * PI / 2 = PI / 2 by rw [TAU_eq]; ring]

/-- C7 witness at az = PI. -/
theorem spec_c7_witness :
    (0 ≤ PI ∧ PI < TAU) ∧ to_math PI = Except.ok (rem_euclid (TAU - PI) TAU) := by
  have h : 0 ≤ PI ∧ PI < TAU := ⟨PI_pos.le, by rw [TAU_eq]; linarith [PI_pos]⟩
  exact ⟨h, (spec_c7.1 PI).2 h⟩

/-- C8.  from_math computes exactly the same function as to_math, and
on canonical input the round trips hold exactly (hence within any
floating tolerance). -/
theorem spec_c8 :
    (∀ az : ℚ, from_math az = to_math az) ∧
    (∀ x : ℚ, 0 ≤ x ∧ x < TAU →
      ∃ y, to_math x = Except.ok y ∧ from_math y = Except.ok x ∧
        from_math x = Except.ok y ∧ to_math y = Except.ok x) := by
  refine ⟨from_math_eq, fun x hx => ?_⟩
  by_cases hx0 : x = 0
  · subst hx0
    exact ⟨0, to_math_zero, by rw [from_math_eq]; exact to_math_zero,
      by rw [from_math_eq]; exact to_math_zero, to_math_zero⟩
  · have h0 : 0 < x := lt_of_le_of_ne hx.1 (Ne.symm hx0)
    have hy1 : 0 < TAU - x := by linarith [hx.2]
    have hy2 : TAU - x < TAU := by linarith
    have hback : to_math (TAU - x) = Except.ok x := by
      rw [to_math_eval hy1 hy2, show TAU - (TAU - x) = x by ring]
    exact ⟨TAU - x, to_math_eval h0 hx.2, by rw [from_math_eq]; exact hback,
      by rw [from_math_eq]; exact to_math_eval h0 hx.2, hback⟩

/-- C8 witness at x = PI / 2. -/
theorem spec_c8_witness :
    (0 ≤ PI/2 ∧ PI/2 < TAU) ∧
    (∃ y, to_math (PI/2) = Except.ok y ∧ from_math y = Except.ok (PI/2) ∧
      from_math (PI/2) = Except.ok y ∧ to_math y = Except.ok (PI/2)) := by
  have h : 0 ≤ PI/2 ∧ PI/2 < TAU := ⟨by linarith [PI_pos], by rw [TAU_eq]; linarith [PI_pos]⟩
  exact ⟨h, spec_c8.2 (PI/2) h⟩

/-- C10.  to_octant_str fails with NotCanonical exactly outside the
canonical window (in particular at -1), otherwise the 8-entry lookup
at bucket index floor(az / (PI/4) + 1/2) modulo 8 never fails, with
the bucket mapping 0 to N, 1 to NE (north token first), and so on. -/
theorem spec_c10 :
    (∀ (az : ℚ) (n e s w : String),
      (to_octant_str az n e s w = Except.error () ↔ ¬ (0 ≤ az ∧ az < TAU)) ∧
      ((0 ≤ az ∧ az < TAU) → ∃ str, to_octant_str az n e s w = Except.ok (some str) ∧
        (octants n e s w).get? (Int.tmod ⌊az / FRAC_PI_4 + 1/2⌋ 8).toNat = some str)) ∧
    to_octant_str (-1) "N" "E" "S" "W" = Except.error () ∧
    (∀ n e s w : String,
      to_octant_str 0 n e s w = Except.ok (some n) ∧
      to_octant_str FRAC_PI_4 n e s w = Except.ok (some (n ++ e)) ∧
      to_octant_str (2 * FRAC_PI_4) n e s w = Except.ok (some e) ∧
      to_octant_str (3 * FRAC_PI_4) n e s w = Except.ok (some (s ++ e)) ∧
      to_octant_str (4 * FRAC_PI_4) n e s w = Except.ok (some s) ∧
      to_octant_str (5 * FRAC_PI_4) n e s w = Except.ok (some (s ++ w)) ∧
      to_octant_str (6 * FRAC_PI_4) n e s w = Except.ok (some w) ∧
      to_octant_str (7 * FRAC_PI_4) n e s w = Except.ok (some (n ++ w))) := by
  have hq4 := FRAC_PI_4_pos
  have hq4ne : FRAC_PI_4 ≠ 0 := ne_of_gt hq4
  have htau8 : TAU = 8 * FRAC_PI_4 := by rw [TAU_eq, FRAC_PI_4_eq]; ring
  refine ⟨fun az n e s w => ⟨⟨fun he => ?_, fun hn => to_octant_of_not az n e s w hn⟩,
      fun hc => ?_⟩, ?_, fun n e s w => ?_⟩
  · by_contra hc
    rw [to_octant_of_canon az n e s w hc] at he
    exact Except.noConfusion he
  · -- the bucket index is always in range, so the lookup succeeds
    have hdiv0 : 0 ≤ az / FRAC_PI_4 := div_nonneg hc.1 hq4.le
    have hdiv8 : az / FRAC_PI_4 < 8 := by
      rw [div_lt_iff₀ hq4]
      rw [htau8] at hc
      linarith [hc.2]
    have hv0 : 0 ≤ ⌊az / FRAC_PI_4 + 1/2⌋ := by
      rw [Int.le_floor]
      push_cast
      linarith
    have hv8 : ⌊az / FRAC_PI_4 + 1/2⌋ < 9 := by
      rw [Int.floor_lt]
      push_cast
      linarith
    rw [to_octant_of_canon az n e s w hc]
    set v := ⌊az / FRAC_PI_4 + 1/2⌋ with hvdef
    interval_cases v <;> exact ⟨_, rfl, rfl⟩
  · exact to_octant_of_not (-1) "N" "E" "S" "W" (fun h => absurd h.1 (by norm_num))
  · have hpi := PI_pos
    have hcan : ∀ m : ℚ, 0 ≤ m → m < 8 → 0 ≤ m * FRAC_PI_4 ∧ m * FRAC_PI_4 < TAU := by
      intro m hm0 hm8
      constructor
      · positivity
      · rw [htau8]
        nlinarith
    refine ⟨?_, ?_, ?_, ?_, ?_, ?_, ?_, ?_⟩
    · rw [to_octant_eval 0 0 n e s w ⟨le_refl 0, TAU_pos⟩ (by rw [zero_div]; norm_num)]
      rfl
    · rw [to_octant_eval FRAC_PI_4 1 n e s w
        (by simpa using hcan 1 (by norm_num) (by norm_num))
        (by rw [div_self hq4ne]; norm_num)]
      rfl
    · rw [to_octant_eval (2 * FRAC_PI_4) 2 n e s w (hcan 2 (by norm_num) (by norm_num))
        (by rw [mul_div_assoc, div_self hq4ne, mul_one]; norm_num)]
      rfl
    · rw [to_octant_eval (3 * FRAC_PI_4) 3 n e s w (hcan 3 (by norm_num) (by norm_num))
        (by rw [mul_div_assoc, div_self hq4ne, mul_one]; norm_num)]
      rfl
    · rw [to_octant_eval (4 * FRAC_PI_4) 4 n e s w (hcan 4 (by norm_num) (by norm_num))
        (by rw [mul_div_assoc, div_self hq4ne, mul_one]; norm_num)]
      rfl
    · rw [to_octant_eval (5 * FRAC_PI_4) 5 n e s w (hcan 5 (by norm_num) (by norm_num))
        (by rw [mul_div_assoc, div_self hq4ne, mul_one]; norm_num)]
      rfl
    · rw [to_octant_eval (6 * FRAC_PI_4) 6 n e s w (hcan 6 (by norm_num) (by norm_num))
        (by rw [mul_div_assoc, div_self hq4ne, mul_one]; norm_num)]
      rfl
    · rw [to_octant_eval (7 * FRAC_PI_4) 7 n e s w (hcan 7 (by norm_num) (by norm_num))
        (by rw [mul_div_assoc, div_self hq4ne, mul_one]; norm_num)]
      rfl

/-- C10 witness at az = PI. -/
theorem spec_c10_witness :
    (0 ≤ PI ∧ PI < TAU) ∧
    (∃ str, to_octant_str PI "N" "E" "S" "W" = Except.ok (some str) ∧
      (octants "N" "E" "S" "W").get? (Int.tmod ⌊PI / FRAC_PI_4 + 1/2⌋ 8).toNat = some str) := by
  have h : 0 ≤ PI ∧ PI < TAU := ⟨PI_pos.le, by rw [TAU_eq]; linarith [PI_pos]⟩
  exact ⟨h, (spec_c10.1 PI "N" "E" "S" "W").2 h⟩

/-- Signum of a negative value is minus one. -/
theorem signum_of_neg {α : Type} [LinearOrderedField α] {x : α} (h : x < 0) :
    signum x = -1 := if_pos h

/-- Signum of a nonnegative value is one (zero included, matching the
f64 behaviour on positive zero). -/
theorem signum_of_nonneg {α : Type} [LinearOrderedField α] {x : α} (h : 0 ≤ x) :
    signum x = 1 := if_neg (not_lt.mpr h)

/-- When the interval is already narrow enough, the bisection loop
immediately returns the left endpoint, whatever the fuel. -/
theorem improveRootGo_stop {α : Type} [LinearOrderedField α] (f : α → α) (eps : α)
    (fuel : ℕ) (x1 x2 : α) (h : ¬ x2 - x1 > eps) :
    improveRootGo f eps fuel x1 x2 = some x1 := by
  cases fuel <;> simp [improveRootGo, h]

/-- One bisection step replacing the left endpoint. -/
theorem improveRootGo_left {α : Type} [LinearOrderedField α] (f : α → α) (eps : α)
    (fuel : ℕ) (x1 x2 : α) (h : x2 - x1 > eps)
    (hs : signum (f ((x1 + x2) / 2)) = signum (f x1)) :
    improveRootGo f eps (fuel + 1) x1 x2 = improveRootGo f eps fuel ((x1 + x2) / 2) x2 := by
  simp [improveRootGo, h, hs]

/-- One bisection step replacing the right endpoint. -/
theorem improveRootGo_right {α : Type} [LinearOrderedField α] (f : α → α) (eps : α)
    (fuel : ℕ) (x1 x2 : α) (h : x2 - x1 > eps)
    (hs : ¬ signum (f ((x1 + x2) / 2)) = signum (f x1)) :
    improveRootGo f eps (fuel + 1) x1 x2 = improveRootGo f eps fuel x1 ((x1 + x2) / 2) := by
  simp [improveRootGo, h, hs]

/-- The bisection loop terminates with the final left endpoint within
the original interval, as soon as the fuel covers the width-halving:
the width is at most eps times two to the fuel. -/
theorem improveRootGo_ok {α : Type} [LinearOrderedField α] (f : α → α) (eps : α) :
    ∀ (fuel : ℕ) (x1 x2 : α), x1 ≤ x2 → x2 - x1 ≤ eps * 2 ^ fuel →
    ∃ r, improveRootGo f eps fuel x1 x2 = some r ∧ x1 ≤ r ∧ r ≤ x2 := by
  intro fuel
  induction fuel with
  | zero =>
    intro x1 x2 hle hw
    rw [pow_zero, mul_one] at hw
    exact ⟨x1, improveRootGo_stop f eps 0 x1 x2 (not_lt.mpr hw), le_refl x1, hle⟩
  | succ fuel ih =>
    intro x1 x2 hle hw
    by_cases hguard : x2 - x1 > eps
    · have hm1 : x1 ≤ (x1 + x2) / 2 := by linarith
      have hm2 : (x1 + x2) / 2 ≤ x2 := by linarith
      rw [pow_succ] at hw
      by_cases hs : signum (f ((x1 + x2) / 2)) = signum (f x1)
      · rw [improveRootGo_left f eps fuel x1 x2 hguard hs]
        obtain ⟨r, hr, hr1, hr2⟩ := ih ((x1 + x2) / 2) x2 hm2 (by linarith)
        exact ⟨r, hr, le_trans hm1 hr1, hr2⟩
      · rw [improveRootGo_right f eps fuel x1 x2 hguard hs]
        obtain ⟨r, hr, hr1, hr2⟩ := ih x1 ((x1 + x2) / 2) hm1 (by linarith)
        exact ⟨r, hr, hr1, le_trans hr2 hm2⟩
    · exact ⟨x1, improveRootGo_stop f eps _ x1 x2 hguard, le_refl x1, hle⟩

/-- With a nonpositive eps and a nondegenerate interval, the bisection
loop never terminates: it returns none for every fuel. -/
theorem improveRootGo_none {α : Type} [LinearOrderedField α] (f : α → α) (eps : α)
    (heps : eps ≤ 0) :
    ∀ (fuel : ℕ) (x1 x2 : α), x1 < x2 → improveRootGo f eps fuel x1 x2 = none := by
  intro fuel
  induction fuel with
  | zero =>
    intro x1 x2 hlt
    have hguard : x2 - x1 > eps := by linarith
    simp [improveRootGo, hguard]
  | succ fuel ih =>
    intro x1 x2 hlt
    have hguard : x2 - x1 > eps := by linarith
    by_cases hs : signum (f ((x1 + x2) / 2)) = signum (f x1)
    · rw [improveRootGo_left f eps fuel x1 x2 hguard hs]
      exact ih _ _ (by linarith)
    · rw [improveRootGo_right f eps fuel x1 x2 hguard hs]
      exact ih _ _ (by linarith)

/-- The fuel computed by improve_root covers the width-halving:
the ceiling-log fuel makes two to the fuel dominate width over eps. -/
theorem bisect_fuel_le {α : Type} [LinearOrderedField α] [FloorRing α]
    {x1 x2 eps : α} (hle : x1 ≤ x2) (heps : 0 < eps) :
    x2 - x1 ≤ eps * 2 ^ Nat.clog 2 (⌈(x2 - x1) / eps⌉.toNat) := by
  set q := (x2 - x1) / eps with hq
  have hq0 : 0 ≤ q := div_nonneg (by linarith) heps.le
  have h1 : q ≤ (⌈q⌉.toNat : α) := by
    have hc0 : 0 ≤ ⌈q⌉ := Int.ceil_nonneg hq0
    have hcast : ((⌈q⌉.toNat : ℤ) : α) = ((⌈q⌉ : ℤ) : α) := by
      rw [Int.toNat_of_nonneg hc0]
    calc q ≤ ((⌈q⌉ : ℤ) : α) := Int.le_ceil q
      _ = ((⌈q⌉.toNat : ℤ) : α) := hcast.symm
      _ = (⌈q⌉.toNat : α) := by push_cast; rfl
  have h2 : (⌈q⌉.toNat : α) ≤ (2 : α) ^ Nat.clog 2 ⌈q⌉.toNat := by
    have hn := Nat.le_pow_clog (show (1:ℕ) < 2 by norm_num) ⌈q⌉.toNat
    exact_mod_cast hn
  have h3 : q ≤ (2 : α) ^ Nat.clog 2 ⌈q⌉.toNat := le_trans h1 h2
  have h4 : x2 - x1 = eps * q := by rw [hq]; field_simp
  rw [h4]
  exact mul_le_mul_of_nonneg_left h3 heps.le

/-- A true guard makes improve_root fail exactly as the Rust code
does. -/
theorem improve_root_err {α : Type} [LinearOrderedField α] [FloorRing α]
    (f : α → α) (x1 x2 eps : α) (h : signum (f x1) = signum (f x2) ∨ x1 > x2) :
    improve_root f x1 x2 eps = some (Except.error ()) := by
  rw [improve_root, if_pos h]

/-- A false guard rules the error out: whatever the loop does, the
result is not the NoBracket error. -/
theorem improve_root_not_err {α : Type} [LinearOrderedField α] [FloorRing α]
    (f : α → α) (x1 x2 eps : α) (h : ¬ (signum (f x1) = signum (f x2) ∨ x1 > x2)) :
    improve_root f x1 x2 eps ≠ some (Except.error ()) := by
  rw [improve_root, if_neg h]
  cases hgo : improveRootGo f eps (Nat.clog 2 (⌈(x2 - x1) / eps⌉.toNat)) x1 x2 <;> simp

/-- With a valid bracket and positive eps, improve_root succeeds and
the returned approximation lies within the original interval. -/
theorem improve_root_ok {α : Type} [LinearOrderedField α] [FloorRing α]
    (f : α → α) (x1 x2 eps : α) (hs : signum (f x1) ≠ signum (f x2))
    (hle : x1 ≤ x2) (heps : 0 < eps) :
    ∃ r, improve_root f x1 x2 eps = some (Except.ok r) ∧ x1 ≤ r ∧ r ≤ x2 := by
  obtain ⟨r, hr, h1, h2⟩ := improveRootGo_ok f eps _ x1 x2 hle (bisect_fuel_le hle heps)
  refine ⟨r, ?_, h1, h2⟩
  rw [improve_root, if_neg (by push_neg; exact ⟨hs, hle⟩), hr]
  rfl

/-- C1.  The claim adds a degenerate eps to the NoBracket condition;
the code does not validate eps, and with a valid bracket and eps at or
below zero the loop never terminates (so no NoBracket is returned).
Amended: improve_root fails with NoBracket exactly when the signums at
the endpoints agree or x1 > x2; otherwise for positive eps it bisects
and succeeds with a point of the original interval, returning the left
endpoint as soon as the width is at or below eps, and for
nonpositive eps the loop runs forever. -/
theorem spec_c1 {α : Type} [LinearOrderedField α] [FloorRing α]
    (f : α → α) (x1 x2 eps : α) :
    (improve_root f x1 x2 eps = some (Except.error ()) ↔
      (signum (f x1) = signum (f x2) ∨ x1 > x2)) ∧
    (¬ (signum (f x1) = signum (f x2) ∨ x1 > x2) → 0 < eps →
      ∃ r, improve_root f x1 x2 eps = some (Except.ok r) ∧ x1 ≤ r ∧ r ≤ x2) ∧
    (¬ (signum (f x1) = signum (f x2) ∨ x1 > x2) → eps ≤ 0 →
      ∀ fuel, improveRootGo f eps fuel x1 x2 = none) ∧
    (x2 - x1 ≤ eps → ∀ fuel, improveRootGo f eps fuel x1 x2 = some x1) := by
  refine ⟨⟨fun he => ?_, improve_root_err f x1 x2 eps⟩, fun h heps => ?_,
    fun h heps fuel => ?_, fun h fuel => improveRootGo_stop f eps fuel x1 x2 (not_lt.mpr h)⟩
  · by_contra h
    exact improve_root_not_err f x1 x2 eps h he
  · push_neg at h
    exact improve_root_ok f x1 x2 eps h.1 h.2 heps
  · push_neg at h
    have hne : x1 ≠ x2 := fun he => h.1 (by rw [he])
    exact improveRootGo_none f eps heps fuel x1 x2 (lt_of_le_of_ne h.2 hne)

/-- C1 counterexample: with the identity function on the valid bracket
from -1 to 1 and eps = -1 (a degenerate eps at or below zero, where
the claim demands the NoBracket error), improve_root does not return
the error; the bisection loop returns none (runs forever) instead. -/
theorem spec_c1_cex :
    (-1 : ℚ) ≤ 0 ∧
    improve_root (fun x : ℚ => x) (-1) 1 (-1) ≠ some (Except.error ()) ∧
    improveRootGo (fun x : ℚ => x) (-1) 5 (-1) 1 = none := by
  have hg : ¬ (signum ((fun x : ℚ => x) (-1)) = signum ((fun x : ℚ => x) 1) ∨
      (-1 : ℚ) > 1) := by
    push_neg
    constructor
    · show signum (-1 : ℚ) ≠ signum (1 : ℚ)
      rw [signum_of_neg (by norm_num : (-1 : ℚ) < 0),
        signum_of_nonneg (by norm_num : (0:ℚ) ≤ 1)]
      norm_num
    · norm_num
  exact ⟨by norm_num, improve_root_not_err _ _ _ _ hg,
    improveRootGo_none _ _ (by norm_num) 5 _ _ (by norm_num)⟩

/-- C1 witness for the amended theorem, with the identity function on
the bracket from -1 to 1 and eps one half. -/
theorem spec_c1_witness :
    ¬ (signum ((fun x : ℚ => x) (-1)) = signum ((fun x : ℚ => x) 1) ∨ (-1 : ℚ) > 1) ∧
    (0 : ℚ) < 1/2 ∧
    (∃ r, improve_root (fun x : ℚ => x) (-1) 1 (1/2) = some (Except.ok r) ∧
      (-1 : ℚ) ≤ r ∧ r ≤ 1) := by
  have hg : ¬ (signum ((fun x : ℚ => x) (-1)) = signum ((fun x : ℚ => x) 1) ∨
      (-1 : ℚ) > 1) := by
    push_neg
    constructor
    · show signum (-1 : ℚ) ≠ signum (1 : ℚ)
      rw [signum_of_neg (by norm_num : (-1 : ℚ) < 0),
        signum_of_nonneg (by norm_num : (0:ℚ) ≤ 1)]
      norm_num
    · norm_num
  exact ⟨hg, by norm_num, (spec_c1 (fun x : ℚ => x) (-1) 1 (1/2)).2.1 hg (by norm_num)⟩

/-- C2.  For a valid bracket and positive eps the bisection loop
terminates within Nat.clog 2 of the ceiling of (x2 - x1) / eps
iterations (the natural-number form of the ceiling of the base-two
logarithm of width over eps), and improve_root, which runs the loop
with exactly that fuel, succeeds. -/
theorem spec_c2 {α : Type} [LinearOrderedField α] [FloorRing α]
    (f : α → α) (x1 x2 eps : α) (hs : signum (f x1) ≠ signum (f x2))
    (hle : x1 ≤ x2) (heps : 0 < eps) :
    ∃ r, improveRootGo f eps (Nat.clog 2 (⌈(x2 - x1) / eps⌉.toNat)) x1 x2 = some r ∧
      improve_root f x1 x2 eps = some (Except.ok r) := by
  obtain ⟨r, hr, h1, h2⟩ := improveRootGo_ok f eps _ x1 x2 hle (bisect_fuel_le hle heps)
  refine ⟨r, hr, ?_⟩
  rw [improve_root, if_neg (by push_neg; exact ⟨hs, hle⟩), hr]
  rfl

/-- C2 witness with the identity function on the bracket from -1 to 1
and eps one half. -/
theorem spec_c2_witness :
    signum ((fun x : ℚ => x) (-1)) ≠ signum ((fun x : ℚ => x) 1) ∧ ((-1 : ℚ) ≤ 1) ∧
    ((0 : ℚ) < 1/2) ∧
    (∃ r, improveRootGo (fun x : ℚ => x) (1/2)
        (Nat.clog 2 (⌈((1 : ℚ) - (-1)) / (1/2)⌉.toNat)) (-1) 1 = some r ∧
      improve_root (fun x : ℚ => x) (-1) 1 (1/2) = some (Except.ok r)) := by
  have hs : signum ((fun x : ℚ => x) (-1)) ≠ signum ((fun x : ℚ => x) 1) := by
    show signum (-1 : ℚ) ≠ signum (1 : ℚ)
    rw [signum_of_neg (by norm_num : (-1 : ℚ) < 0),
      signum_of_nonneg (by norm_num : (0:ℚ) ≤ 1)]
    norm_num
  exact ⟨hs, by norm_num, by norm_num,
    spec_c2 (fun x : ℚ => x) (-1) 1 (1/2) hs (by norm_num) (by norm_num)⟩

/-- C3.  The claim describes a three-way sign with zero as its own
class; the f64 signum instead maps zero (positive zero) to 1, so a
left endpoint with function value exactly zero against a positive
right endpoint is NOT a bracket (NoBracket), while against a negative
right endpoint it is.  Amended accordingly: signum has exactly the two
classes nonnegative and negative, zero counts as positive, and an
exact zero at the midpoint replaces whichever endpoint has
nonnegative function value. -/
theorem spec_c3 :
    signum (0 : ℚ) = 1 ∧
    (∀ x : ℚ, 0 ≤ x → signum x = 1) ∧
    (∀ x : ℚ, x < 0 → signum x = -1) ∧
    (∀ x y : ℚ, signum x = signum y ↔ ((0 ≤ x ∧ 0 ≤ y) ∨ (x < 0 ∧ y < 0))) ∧
    (∀ (f : ℚ → ℚ) (x1 x2 eps : ℚ), f x1 = 0 → 0 < f x2 →
      improve_root f x1 x2 eps = some (Except.error ())) ∧
    (∀ (f : ℚ → ℚ) (x1 x2 eps : ℚ), f x1 = 0 → f x2 < 0 → x1 ≤ x2 → 0 < eps →
      ∃ r, improve_root f x1 x2 eps = some (Except.ok r)) ∧
    (∀ (f : ℚ → ℚ) (eps x1 x2 : ℚ) (fuel : ℕ), x2 - x1 > eps → f ((x1 + x2) / 2) = 0 →
      ((0 ≤ f x1 → improveRootGo f eps (fuel + 1) x1 x2 =
          improveRootGo f eps fuel ((x1 + x2) / 2) x2) ∧
       (f x1 < 0 → improveRootGo f eps (fuel + 1) x1 x2 =
          improveRootGo f eps fuel x1 ((x1 + x2) / 2)))) := by
  refine ⟨signum_of_nonneg (le_refl 0), fun x hx => signum_of_nonneg hx,
    fun x hx => signum_of_neg hx, fun x y => ⟨fun h => ?_, fun h => ?_⟩,
    fun f x1 x2 eps h1 h2 => ?_, fun f x1 x2 eps h1 h2 hle heps => ?_,
    fun f eps x1 x2 fuel hg hm => ⟨fun hx1 => ?_, fun hx1 => ?_⟩⟩
  · rcases lt_or_le x 0 with hx | hx <;> rcases lt_or_le y 0 with hy | hy
    · exact Or.inr ⟨hx, hy⟩
    · rw [signum_of_neg hx, signum_of_nonneg hy] at h
      norm_num at h
    · rw [signum_of_nonneg hx, signum_of_neg hy] at h
      norm_num at h
    · exact Or.inl ⟨hx, hy⟩
  · rcases h with ⟨hx, hy⟩ | ⟨hx, hy⟩
    · rw [signum_of_nonneg hx, signum_of_nonneg hy]
    · rw [signum_of_neg hx, signum_of_neg hy]
  · apply improve_root_err
    left
    rw [h1, signum_of_nonneg (le_refl 0), signum_of_nonneg h2.le]
  · have hs : signum (f x1) ≠ signum (f x2) := by
      rw [h1, signum_of_nonneg (le_refl 0), signum_of_neg h2]
      norm_num
    obtain ⟨r, hr, _, _⟩ := improve_root_ok f x1 x2 eps hs hle heps
    exact ⟨r, hr⟩
  · refine improveRootGo_left f eps fuel x1 x2 hg ?_
    rw [hm, signum_of_nonneg (le_refl 0), signum_of_nonneg hx1]
  · refine improveRootGo_right f eps fuel x1 x2 hg ?_
    rw [hm, signum_of_nonneg (le_refl 0), signum_of_neg hx1]
    norm_num

/-- C3 counterexample: the identity function with left endpoint 0
(function value exactly zero) and right endpoint 1 (strictly
positive): the claim calls this a valid bracket, but signum maps both
0 and 1 to 1, so the code returns the NoBracket error. -/
theorem spec_c3_cex :
    improve_root (fun x : ℚ => x) 0 1 1 = some (Except.error ()) ∧
    signum (0 : ℚ) = signum (1 : ℚ) ∧ (0 : ℚ) ≠ 1 ∧ (0:ℚ) < 1 := by
  have hs : signum (0 : ℚ) = signum (1 : ℚ) := by
    rw [signum_of_nonneg (le_refl 0), signum_of_nonneg (by norm_num : (0:ℚ) ≤ 1)]
  exact ⟨improve_root_err _ _ _ _ (Or.inl hs), hs, by norm_num, by norm_num⟩

/-- C3 witness for the amended theorem: zero left endpoint value
against positive right endpoint value is rejected as NoBracket. -/
theorem spec_c3_witness :
    ((fun x : ℚ => x) 0 = 0) ∧ (0 < (fun x : ℚ => x) 1) ∧
    improve_root (fun x : ℚ => x) 0 1 1 = some (Except.error ()) := by
  exact ⟨rfl, by norm_num, spec_c3.2.2.2.2.1 (fun x : ℚ => x) 0 1 1 rfl (by norm_num)⟩

/-- Once the running index reaches max_x, the scan returns the
INFINITY sentinel, whatever the fuel. -/
theorem fiGo_stop {α : Type} [LinearOrderedField α] [FloorRing α]
    (f : α → α) (maxX dx : α) (fuel : ℕ) (i : α) (h : ¬ i < maxX) :
    firstIntervalGo f maxX dx fuel i = some none := by
  cases fuel <;> simp [firstIntervalGo, h]

/-- A scan step that finds a bracket returns the current left edge. -/
theorem fiGo_step_hit {α : Type} [LinearOrderedField α] [FloorRing α]
    (f : α → α) (maxX dx : α) (fuel : ℕ) (i : α) (hi : i < maxX) (hle : i ≤ i + dx)
    (hs : signum (f i) ≠ signum (f (i + dx))) :
    firstIntervalGo f maxX dx (fuel + 1) i = some (some i) := by
  obtain ⟨r, hr, _, _⟩ :=
    improve_root_ok f i (i + dx) (1 / 10 ^ 10) hs hle (by positivity)
  show (if i < maxX then
      match improve_root f i (i + dx) (1 / 10 ^ 10) with
      | some (Except.ok _) => some (some i)
      | _ => firstIntervalGo f maxX dx fuel (i + dx)
    else some none) = some (some i)
  rw [if_pos hi, hr]

/-- A scan step with no bracket advances the index by dx. -/
theorem fiGo_step_miss {α : Type} [LinearOrderedField α] [FloorRing α]
    (f : α → α) (maxX dx : α) (fuel : ℕ) (i : α) (hi : i < maxX)
    (hs : signum (f i) = signum (f (i + dx))) :
    firstIntervalGo f maxX dx (fuel + 1) i = firstIntervalGo f maxX dx fuel (i + dx) := by
  have herr : improve_root f i (i + dx) (1 / 10 ^ 10) = some (Except.error ()) :=
    improve_root_err f i (i + dx) (1 / 10 ^ 10) (Or.inl hs)
  show (if i < maxX then
      match improve_root f i (i + dx) (1 / 10 ^ 10) with
      | some (Except.ok _) => some (some i)
      | _ => firstIntervalGo f maxX dx fuel (i + dx)
    else some none) = firstIntervalGo f maxX dx fuel (i + dx)
  rw [if_pos hi, herr]

/-- Characterization of the scan loop, for positive dx and fuel that
covers the scanned range: the loop returns left edge r exactly when r
is the first scanned edge whose sub-interval brackets a sign change,
and it returns the INFINITY sentinel exactly when no scanned edge
does. -/
theorem fiGo_char {α : Type} [LinearOrderedField α] [FloorRing α]
    (f : α → α) (maxX dx : α) (hdx : 0 < dx) :
    ∀ (fuel : ℕ) (i : α), maxX ≤ i + (fuel : α) * dx →
      ((∀ r : α, firstIntervalGo f maxX dx fuel i = some (some r) ↔
          (∃ k : ℕ, r = i + (k : α) * dx ∧ r < maxX ∧
            signum (f r) ≠ signum (f (r + dx)) ∧
            (∀ j : ℕ, j < k →
              signum (f (i + (j : α) * dx)) = signum (f (i + (j : α) * dx + dx))))) ∧
        (firstIntervalGo f maxX dx fuel i = some none ↔
          (∀ k : ℕ, i + (k : α) * dx < maxX →
            signum (f (i + (k : α) * dx)) = signum (f (i + (k : α) * dx + dx))))) := by
  intro fuel
  induction fuel with
  | zero =>
    intro i hfuel
    push_cast at hfuel
    rw [zero_mul, add_zero] at hfuel
    have hstop : firstIntervalGo f maxX dx 0 i = some none :=
      fiGo_stop f maxX dx 0 i (not_lt.mpr hfuel)
    refine ⟨fun r => ?_, ?_⟩
    · rw [hstop]
      constructor
      · intro h
        exact absurd h (by simp)
      · rintro ⟨k, hk1, hk2, hk3, hk4⟩
        exfalso
        have hpos : (0:α) ≤ (k : α) * dx := by positivity
        rw [hk1] at hk2
        linarith
    · rw [hstop]
      constructor
      · intro _ k hk
        exfalso
        have hpos : (0:α) ≤ (k : α) * dx := by positivity
        linarith
      · intro _
        rfl
  | succ fuel ih =>
    intro i hfuel
    by_cases hi : i < maxX
    · have hle : i ≤ i + dx := by linarith
      have hfuel2 : maxX ≤ (i + dx) + (fuel : α) * dx := by
        push_cast at hfuel
        linarith
      by_cases hs : signum (f i) = signum (f (i + dx))
      · -- no bracket at i: the scan advances
        have hstep := fiGo_step_miss f maxX dx fuel i hi hs
        obtain ⟨ih1, ih2⟩ := ih (i + dx) hfuel2
        refine ⟨fun r => ?_, ?_⟩
        · rw [hstep, ih1 r]
          constructor
          · rintro ⟨k, hk1, hk2, hk3, hk4⟩
            refine ⟨k + 1, by rw [hk1]; push_cast; ring, hk2, hk3, fun j hj => ?_⟩
            cases j with
            | zero =>
              simpa using hs
            | succ j =>
              have harg : i + (((j:ℕ) + 1 : ℕ) : α) * dx = (i + dx) + (j : α) * dx := by
                push_cast
                ring
              rw [harg]
              exact hk4 j (by omega)
          · rintro ⟨k, hk1, hk2, hk3, hk4⟩
            cases k with
            | zero =>
              exfalso
              rw [show ((0:ℕ) : α) = 0 by norm_num, zero_mul, add_zero] at hk1
              rw [hk1] at hk3
              exact hk3 hs
            | succ k =>
              refine ⟨k, by rw [hk1]; push_cast; ring, hk2, hk3, fun j hj => ?_⟩
              have harg : i + (((j:ℕ) + 1 : ℕ) : α) * dx = (i + dx) + (j : α) * dx := by
                push_cast
                ring
              rw [← harg]
              exact hk4 (j + 1) (by omega)
        · rw [hstep, ih2]
          constructor
          · intro h k hk
            cases k with
            | zero =>
              simpa using hs
            | succ k =>
              have harg : i + (((k:ℕ) + 1 : ℕ) : α) * dx = (i + dx) + (k : α) * dx := by
                push_cast
                ring
              rw [harg] at hk ⊢
              exact h k hk
          · intro h k hk
            have harg : i + (((k:ℕ) + 1 : ℕ) : α) * dx = (i + dx) + (k : α) * dx := by
              push_cast
              ring
            rw [← harg] at hk ⊢
            exact h (k + 1) hk
      · -- bracket at i: the scan returns i
        have hstep := fiGo_step_hit f maxX dx fuel i hi hle hs
        refine ⟨fun r => ?_, ?_⟩
        · rw [hstep]
          constructor
          · intro h
            have hr : i = r := by simpa using h
            refine ⟨0, by rw [← hr]; push_cast; ring, by rw [← hr]; exact hi,
              by rw [← hr]; exact hs, fun j hj => by omega⟩
          · rintro ⟨k, hk1, hk2, hk3, hk4⟩
            cases k with
            | zero =>
              rw [show ((0:ℕ) : α) = 0 by norm_num, zero_mul, add_zero] at hk1
              rw [hk1]
            | succ k =>
              exfalso
              have h0 := hk4 0 (by omega)
              rw [show ((0:ℕ) : α) = 0 by norm_num, zero_mul, add_zero] at h0
              exact hs h0
        · rw [hstep]
          constructor
          · intro h
            exact absurd h (by simp)
          · intro h
            exfalso
            have h0 := h 0 (by rw [show ((0:ℕ) : α) = 0 by norm_num, zero_mul, add_zero]; exact hi)
            rw [show ((0:ℕ) : α) = 0 by norm_num, zero_mul, add_zero] at h0
            exact hs h0
    · -- the index is already past max_x
      have hge : maxX ≤ i := not_lt.mp hi
      have hstop : firstIntervalGo f maxX dx (fuel + 1) i = some none :=
        fiGo_stop f maxX dx (fuel + 1) i hi
      refine ⟨fun r => ?_, ?_⟩
      · rw [hstop]
        constructor
        · intro h
          exact absurd h (by simp)
        · rintro ⟨k, hk1, hk2, hk3, hk4⟩
          exfalso
          have hpos : (0:α) ≤ (k : α) * dx := by positivity
          rw [hk1] at hk2
          linarith
      · rw [hstop]
        constructor
        · intro _ k hk
          exfalso
          have hpos : (0:α) ≤ (k : α) * dx := by positivity
          linarith
        · intro _
          rfl

/-- The fuel passed by first_interval_containing_root covers the
scanned range for positive dx. -/
theorem fi_fuel_adequate {α : Type} [LinearOrderedField α] [FloorRing α]
    (minX maxX dx : α) (hdx : 0 < dx) :
    maxX ≤ minX + ((((⌈(maxX - minX) / dx⌉).toNat + 1 : ℕ)) : α) * dx := by
  set q := (maxX - minX) / dx with hq
  have h1 : q ≤ (⌈q⌉.toNat : α) + 1 := by
    rcases le_or_lt 0 ⌈q⌉ with hc | hc
    · have hcast : ((⌈q⌉.toNat : ℤ) : α) = ((⌈q⌉ : ℤ) : α) := by
        rw [Int.toNat_of_nonneg hc]
      have : q ≤ (⌈q⌉.toNat : α) := by
        calc q ≤ ((⌈q⌉ : ℤ) : α) := Int.le_ceil q
          _ = ((⌈q⌉.toNat : ℤ) : α) := hcast.symm
          _ = (⌈q⌉.toNat : α) := by push_cast; rfl
      linarith
    · have hq0 : q ≤ ((⌈q⌉ : ℤ) : α) := Int.le_ceil q
      have hcneg : ((⌈q⌉ : ℤ) : α) < 0 := by exact_mod_cast hc
      have hnn : (0:α) ≤ (⌈q⌉.toNat : α) := Nat.cast_nonneg _
      linarith
  have h2 : q * dx = maxX - minX := by
    rw [hq]
    exact div_mul_cancel₀ _ (ne_of_gt hdx)
  have h3 := mul_le_mul_of_nonneg_right h1 hdx.le
  rw [h2] at h3
  push_cast
  linarith

/-- Characterization of first_interval_containing_root for positive
dx, at the wrapper level. -/
theorem first_interval_char {α : Type} [LinearOrderedField α] [FloorRing α]
    (f : α → α) (minX maxX dx : α) (hdx : 0 < dx) :
    (∀ r : α, first_interval_containing_root f minX maxX dx = some (some r) ↔
        (∃ k : ℕ, r = minX + (k : α) * dx ∧ r < maxX ∧
          signum (f r) ≠ signum (f (r + dx)) ∧
          (∀ j : ℕ, j < k →
            signum (f (minX + (j : α) * dx)) = signum (f (minX + (j : α) * dx + dx))))) ∧
    (first_interval_containing_root f minX maxX dx = some none ↔
        (∀ k : ℕ, minX + (k : α) * dx < maxX →
          signum (f (minX + (k : α) * dx)) = signum (f (minX + (k : α) * dx + dx)))) := by
  have h := fiGo_char f maxX dx hdx ((⌈(maxX - minX) / dx⌉).toNat + 1) minX
    (fi_fuel_adequate minX maxX dx hdx)
  simpa [first_interval_containing_root] using h

/-- The sine is positive at one. -/
theorem sin1_pos : 0 < Real.sin 1 :=
  Real.sin_pos_of_pos_of_lt_pi (by norm_num) (by linarith [Real.pi_gt_three])

/-- The sine is positive at two. -/
theorem sin2_pos : 0 < Real.sin 2 :=
  Real.sin_pos_of_pos_of_lt_pi (by norm_num) (by linarith [Real.pi_gt_three])

/-- The sine is positive at three. -/
theorem sin3_pos : 0 < Real.sin 3 :=
  Real.sin_pos_of_pos_of_lt_pi (by norm_num) (by linarith [Real.pi_gt_three])

/-- The sine is negative at four. -/
theorem sin4_neg : Real.sin 4 < 0 := by
  have h := Real.sin_neg_of_neg_of_neg_pi_lt
    (show (4:ℝ) - 2 * Real.pi < 0 by linarith [Real.pi_gt_three])
    (show -Real.pi < 4 - 2 * Real.pi by linarith [Real.pi_lt_four])
  have h2 : Real.sin (4 - 2 * Real.pi + 2 * Real.pi) = Real.sin (4 - 2 * Real.pi) :=
    Real.sin_add_two_pi _
  rw [show (4:ℝ) - 2 * Real.pi + 2 * Real.pi = 4 by ring] at h2
  rw [h2]
  exact h

/-- The sine is negative on the window from -1 to 0. -/
theorem sin_neg_on {x : ℝ} (h1 : -1 ≤ x) (h2 : x < 0) : Real.sin x < 0 :=
  Real.sin_neg_of_neg_of_neg_pi_lt h2 (by linarith [Real.pi_gt_three])

/-- Scan example on the sine over the range one to four with step
one: the first bracketing sub-interval starts at three. -/
theorem fiRoot_sin_example1 :
    first_interval_containing_root Real.sin 1 4 1 = some (some 3) := by
  have hs1 : signum (Real.sin 1) = signum (Real.sin (1 + 1)) := by
    rw [show (1:ℝ) + 1 = 2 by norm_num, signum_of_nonneg sin1_pos.le,
      signum_of_nonneg sin2_pos.le]
  have hs2 : signum (Real.sin 2) = signum (Real.sin (2 + 1)) := by
    rw [show (2:ℝ) + 1 = 3 by norm_num, signum_of_nonneg sin2_pos.le,
      signum_of_nonneg sin3_pos.le]
  have hs3 : signum (Real.sin 3) ≠ signum (Real.sin (3 + 1)) := by
    rw [show (3:ℝ) + 1 = 4 by norm_num, signum_of_nonneg sin3_pos.le,
      signum_of_neg sin4_neg]
    norm_num
  unfold first_interval_containing_root
  rw [show ⌈((4:ℝ) - 1) / 1⌉ = 3 by norm_num]
  rw [show ((3:ℤ).toNat + 1 : ℕ) = 3 + 1 from rfl]
  rw [fiGo_step_miss Real.sin 4 1 3 1 (by norm_num) hs1,
    show (1:ℝ) + 1 = 2 by norm_num]
  show firstIntervalGo Real.sin 4 1 (2 + 1) 2 = some (some 3)
  rw [fiGo_step_miss Real.sin 4 1 2 2 (by norm_num) hs2,
    show (2:ℝ) + 1 = 3 by norm_num]
  show firstIntervalGo Real.sin 4 1 (1 + 1) 3 = some (some 3)
  rw [fiGo_step_hit Real.sin 4 1 1 3 (by norm_num) (by norm_num) hs3]

/-- Scan example on the sine over the range minus one to one with
step 0.1 + 1e-11: the first bracketing sub-interval starts at the
ninth scanned edge, -9999999991/10^11, which is within 1e-10 of
-0.1. -/
theorem fiRoot_sin_example2 :
    first_interval_containing_root Real.sin (-1) 1 (1/10 + 1/10^11) =
      some (some ((-9999999991 : ℝ)/10^11)) := by
  have h0 : signum (Real.sin (-1 : ℝ)) = signum (Real.sin ((-1 : ℝ) + (1/10 + 1/10^11))) := by
    rw [show (-1 : ℝ) + (1/10 + 1/10^11) = ((-89999999999 : ℝ)/10^11) by norm_num,
      signum_of_neg (sin_neg_on (by norm_num) (by norm_num)),
      signum_of_neg (sin_neg_on (by norm_num) (by norm_num))]
  have h1 : signum (Real.sin ((-89999999999 : ℝ)/10^11)) = signum (Real.sin (((-89999999999 : ℝ)/10^11) + (1/10 + 1/10^11))) := by
    rw [show ((-89999999999 : ℝ)/10^11) + (1/10 + 1/10^11) = ((-79999999998 : ℝ)/10^11) by norm_num,
      signum_of_neg (sin_neg_on (by norm_num) (by norm_num)),
      signum_of_neg (sin_neg_on (by norm_num) (by norm_num))]
  have h2 : signum (Real.sin ((-79999999998 : ℝ)/10^11)) = signum (Real.sin (((-79999999998 : ℝ)/10^11) + (1/10 + 1/10^11))) := by
    rw [show ((-79999999998 : ℝ)/10^11) + (1/10 + 1/10^11) = ((-69999999997 : ℝ)/10^11) by norm_num,
      signum_of_neg (sin_neg_on (by norm_num) (by norm_num)),
      signum_of_neg (sin_neg_on (by norm_num) (by norm_num))]
  have h3 : signum (Real.sin ((-69999999997 : ℝ)/10^11)) = signum (Real.sin (((-69999999997 : ℝ)/10^11) + (1/10 + 1/10^11))) := by
    rw [show ((-69999999997 : ℝ)/10^11) + (1/10 + 1/10^11) = ((-59999999996 : ℝ)/10^11) by norm_num,
      signum_of_neg (sin_neg_on (by norm_num) (by norm_num)),
      signum_of_neg (sin_neg_on (by norm_num) (by norm_num))]
  have h4 : signum (Real.sin ((-59999999996 : ℝ)/10^11)) = signum (Real.sin (((-59999999996 : ℝ)/10^11) + (1/10 + 1/10^11))) := by
    rw [show ((-59999999996 : ℝ)/10^11) + (1/10 + 1/10^11) = ((-49999999995 : ℝ)/10^11) by norm_num,
      signum_of_neg (sin_neg_on (by norm_num) (by norm_num)),
      signum_of_neg (sin_neg_on (by norm_num) (by norm_num))]
  have h5 : signum (Real.sin ((-49999999995 : ℝ)/10^11)) = signum (Real.sin (((-49999999995 : ℝ)/10^11) + (1/10 + 1/10^11))) := by
    rw [show ((-49999999995 : ℝ)/10^11) + (1/10 + 1/10^11) = ((-39999999994 : ℝ)/10^11) by norm_num,
      signum_of_neg (sin_neg_on (by norm_num) (by norm_num)),
      signum_of_neg (sin_neg_on (by norm_num) (by norm_num))]
  have h6 : signum (Real.sin ((-39999999994 : ℝ)/10^11)) = signum (Real.sin (((-39999999994 : ℝ)/10^11) + (1/10 + 1/10^11))) := by
    rw [show ((-39999999994 : ℝ)/10^11) + (1/10 + 1/10^11) = ((-29999999993 : ℝ)/10^11) by norm_num,
      signum_of_neg (sin_neg_on (by norm_num) (by norm_num)),
      signum_of_neg (sin_neg_on (by norm_num) (by norm_num))]
  have h7 : signum (Real.sin ((-29999999993 : ℝ)/10^11)) = signum (Real.sin (((-29999999993 : ℝ)/10^11) + (1/10 + 1/10^11))) := by
    rw [show ((-29999999993 : ℝ)/10^11) + (1/10 + 1/10^11) = ((-19999999992 : ℝ)/10^11) by norm_num,
      signum_of_neg (sin_neg_on (by norm_num) (by norm_num)),
      signum_of_neg (sin_neg_on (by norm_num) (by norm_num))]
  have h8 : signum (Real.sin ((-19999999992 : ℝ)/10^11)) = signum (Real.sin (((-19999999992 : ℝ)/10^11) + (1/10 + 1/10^11))) := by
    rw [show ((-19999999992 : ℝ)/10^11) + (1/10 + 1/10^11) = ((-9999999991 : ℝ)/10^11) by norm_num,
      signum_of_neg (sin_neg_on (by norm_num) (by norm_num)),
      signum_of_neg (sin_neg_on (by norm_num) (by norm_num))]
  have h9 : signum (Real.sin ((-9999999991 : ℝ)/10^11)) ≠ signum (Real.sin (((-9999999991 : ℝ)/10^11) + (1/10 + 1/10^11))) := by
    rw [show ((-9999999991 : ℝ)/10^11) + (1/10 + 1/10^11) = 1/10^10 by norm_num,
      signum_of_neg (sin_neg_on (by norm_num) (by norm_num)),
      signum_of_nonneg (Real.sin_pos_of_pos_of_lt_pi (by norm_num)
        (by linarith [Real.pi_gt_three])).le]
    norm_num
  unfold first_interval_containing_root
  rw [show ⌈((1:ℝ) - -1) / (1/10 + 1/10^11)⌉ = 20 by
    rw [show ((1:ℝ) - -1) / (1/10 + 1/10^11) = 200000000000 / 10000000001 by norm_num,
      Int.ceil_eq_iff]
    norm_num]
  show firstIntervalGo Real.sin 1 (1/10 + 1/10^11) (20 + 1) (-1 : ℝ) =
    some (some ((-9999999991 : ℝ)/10^11))
  rw [fiGo_step_miss Real.sin 1 (1/10 + 1/10^11) 20 (-1 : ℝ) (by norm_num) h0,
    show (-1 : ℝ) + (1/10 + 1/10^11) = ((-89999999999 : ℝ)/10^11) by norm_num]
  show firstIntervalGo Real.sin 1 (1/10 + 1/10^11) (19 + 1) ((-89999999999 : ℝ)/10^11) =
    some (some ((-9999999991 : ℝ)/10^11))
  rw [fiGo_step_miss Real.sin 1 (1/10 + 1/10^11) 19 ((-89999999999 : ℝ)/10^11) (by norm_num) h1,
    show ((-89999999999 : ℝ)/10^11) + (1/10 + 1/10^11) = ((-79999999998 : ℝ)/10^11) by norm_num]
  show firstIntervalGo Real.sin 1 (1/10 + 1/10^11) (18 + 1) ((-79999999998 : ℝ)/10^11) =
    some (some ((-9999999991 : ℝ)/10^11))
  rw [fiGo_step_miss Real.sin 1 (1/10 + 1/10^11) 18 ((-79999999998 : ℝ)/10^11) (by norm_num) h2,
    show ((-79999999998 : ℝ)/10^11) + (1/10 + 1/10^11) = ((-69999999997 : ℝ)/10^11) by norm_num]
  show firstIntervalGo Real.sin 1 (1/10 + 1/10^11) (17 + 1) ((-69999999997 : ℝ)/10^11) =
    some (some ((-9999999991 : ℝ)/10^11))
  rw [fiGo_step_miss Real.sin 1 (1/10 + 1/10^11) 17 ((-69999999997 : ℝ)/10^11) (by norm_num) h3,
    show ((-69999999997 : ℝ)/10^11) + (1/10 + 1/10^11) = ((-59999999996 : ℝ)/10^11) by norm_num]
  show firstIntervalGo Real.sin 1 (1/10 + 1/10^11) (16 + 1) ((-59999999996 : ℝ)/10^11) =
    some (some ((-9999999991 : ℝ)/10^11))
  rw [fiGo_step_miss Real.sin 1 (1/10 + 1/10^11) 16 ((-59999999996 : ℝ)/10^11) (by norm_num) h4,
    show ((-59999999996 : ℝ)/10^11) + (1/10 + 1/10^11) = ((-49999999995 : ℝ)/10^11) by norm_num]
  show firstIntervalGo Real.sin 1 (1/10 + 1/10^11) (15 + 1) ((-49999999995 : ℝ)/10^11) =
    some (some ((-9999999991 : ℝ)/10^11))
  rw [fiGo_step_miss Real.sin 1 (1/10 + 1/10^11) 15 ((-49999999995 : ℝ)/10^11) (by norm_num) h5,
    show ((-49999999995 : ℝ)/10^11) + (1/10 + 1/10^11) = ((-39999999994 : ℝ)/10^11) by norm_num]
  show firstIntervalGo Real.sin 1 (1/10 + 1/10^11) (14 + 1) ((-39999999994 : ℝ)/10^11) =
    some (some ((-9999999991 : ℝ)/10^11))
  rw [fiGo_step_miss Real.sin 1 (1/10 + 1/10^11) 14 ((-39999999994 : ℝ)/10^11) (by norm_num) h6,
    show ((-39999999994 : ℝ)/10^11) + (1/10 + 1/10^11) = ((-29999999993 : ℝ)/10^11) by norm_num]
  show firstIntervalGo Real.sin 1 (1/10 + 1/10^11) (13 + 1) ((-29999999993 : ℝ)/10^11) =
    some (some ((-9999999991 : ℝ)/10^11))
  rw [fiGo_step_miss Real.sin 1 (1/10 + 1/10^11) 13 ((-29999999993 : ℝ)/10^11) (by norm_num) h7,
    show ((-29999999993 : ℝ)/10^11) + (1/10 + 1/10^11) = ((-19999999992 : ℝ)/10^11) by norm_num]
  show firstIntervalGo Real.sin 1 (1/10 + 1/10^11) (12 + 1) ((-19999999992 : ℝ)/10^11) =
    some (some ((-9999999991 : ℝ)/10^11))
  rw [fiGo_step_miss Real.sin 1 (1/10 + 1/10^11) 12 ((-19999999992 : ℝ)/10^11) (by norm_num) h8,
    show ((-19999999992 : ℝ)/10^11) + (1/10 + 1/10^11) = ((-9999999991 : ℝ)/10^11) by norm_num]
  show firstIntervalGo Real.sin 1 (1/10 + 1/10^11) (11 + 1) ((-9999999991 : ℝ)/10^11) =
    some (some ((-9999999991 : ℝ)/10^11))
  rw [fiGo_step_hit Real.sin 1 (1/10 + 1/10^11) 11 ((-9999999991 : ℝ)/10^11) (by norm_num) (by norm_num) h9]

/-- C9.  first_interval_containing_root scans the left edges
min_x + k * dx while they are below max_x, returns the first left
edge whose sub-interval brackets a sign change (the coarse edge, not
the refined root), and returns the INFINITY sentinel (modelled by the
inner none) when no scanned edge brackets one; on the sine the two
documented examples hold, the second being within 1e-10 of -0.1. -/
theorem spec_c9 :
    (∀ (α : Type) [LinearOrderedField α] [FloorRing α] (f : α → α) (minX maxX dx : α),
      0 < dx →
      (∀ r : α, first_interval_containing_root f minX maxX dx = some (some r) ↔
          (∃ k : ℕ, r = minX + (k : α) * dx ∧ r < maxX ∧
            signum (f r) ≠ signum (f (r + dx)) ∧
            (∀ j : ℕ, j < k →
              signum (f (minX + (j : α) * dx)) =
                signum (f (minX + (j : α) * dx + dx))))) ∧
      (first_interval_containing_root f minX maxX dx = some none ↔
          (∀ k : ℕ, minX + (k : α) * dx < maxX →
            signum (f (minX + (k : α) * dx)) =
              signum (f (minX + (k : α) * dx + dx))))) ∧
    first_interval_containing_root Real.sin 1 4 1 = some (some 3) ∧
    first_interval_containing_root Real.sin (-1) 1 (1/10 + 1/10^11) =
      some (some (-1 + 9 * (1/10 + 1/10^11))) ∧
    |(-1 + 9 * ((1:ℝ)/10 + 1/10^11)) - -(1/10)| ≤ 1/10^10 := by
  refine ⟨?_, fiRoot_sin_example1, ?_, ?_⟩
  · intro α inst1 inst2 f minX maxX dx hdx
    exact first_interval_char f minX maxX dx hdx
  · rw [fiRoot_sin_example2,
      show ((-9999999991 : ℝ)/10^11) = -1 + 9 * (1/10 + 1/10^11) by norm_num]
  · rw [show (-1 + 9 * ((1:ℝ)/10 + 1/10^11)) - -(1/10) = 9/10^11 by norm_num,
      abs_of_nonneg (by norm_num : (0:ℝ) ≤ 9/10^11)]
    norm_num

/-- C9 witness: the characterization applied over the rationals to
the constant one function on the range zero to two with step one. -/
theorem spec_c9_witness :
    (0:ℚ) < 1 ∧
    ((∀ r : ℚ, first_interval_containing_root (fun _ : ℚ => (1:ℚ)) 0 2 1 = some (some r) ↔
        (∃ k : ℕ, r = 0 + (k : ℚ) * 1 ∧ r < 2 ∧
          signum ((fun _ : ℚ => (1:ℚ)) r) ≠ signum ((fun _ : ℚ => (1:ℚ)) (r + 1)) ∧
          (∀ j : ℕ, j < k →
            signum ((fun _ : ℚ => (1:ℚ)) (0 + (j : ℚ) * 1)) =
              signum ((fun _ : ℚ => (1:ℚ)) (0 + (j : ℚ) * 1 + 1))))) ∧
      (first_interval_containing_root (fun _ : ℚ => (1:ℚ)) 0 2 1 = some none ↔
        (∀ k : ℕ, (0:ℚ) + (k : ℚ) * 1 < 2 →
          signum ((fun _ : ℚ => (1:ℚ)) ((0:ℚ) + (k : ℚ) * 1)) =
            signum ((fun _ : ℚ => (1:ℚ)) ((0:ℚ) + (k : ℚ) * 1 + 1))))) :=
  ⟨by norm_num, spec_c9.1 ℚ (fun _ : ℚ => (1:ℚ)) 0 2 1 (by norm_num)⟩

end Alpano
